import Mathlib

/-!
Verification of the catis interpreter (src/main.c) against its
natural-language specification. The definitions below are a shallow
embedding of the C source: each definition's doc comment names the C
function and lines it embeds. Values are modelled as a tagged sum,
machine strings as lists of characters (the bytes before the NUL
terminator of the corresponding C string, which therefore never contain
a NUL), and the operand stack as a list whose head is the top of stack.
-/

namespace Catis

/-- Embeds the tagged union `catis_object` (main.c:28-46). The `line`
field is error-reporting metadata only and is omitted. Lists share the
`quoted` field with tuples in the C union but the interpreter never
reads it for lists, so only tuples and symbols carry it here. -/
inductive Obj where
  | int (n : Int)
  | bool (b : Bool)
  | str (s : List Char)
  | sym (s : List Char) (quoted : Bool)
  | list (xs : List Obj)
  | tuple (xs : List Obj) (quoted : Bool)

instance : Inhabited Obj := ⟨Obj.int 0⟩

mutual
/-- Structural equality test on values, used only to obtain decidable
equality for the nested inductive `Obj`. -/
def beqO : Obj → Obj → Bool
  | .int a, .int b => a == b
  | .bool a, .bool b => a == b
  | .str a, .str b => a == b
  | .sym a qa, .sym b qb => a == b && qa == qb
  | .list xs, .list ys => beqL xs ys
  | .tuple xs qa, .tuple ys qb => beqL xs ys && qa == qb
  | _, _ => false
/-- Pointwise `beqO` on lists of values. -/
def beqL : List Obj → List Obj → Bool
  | [], [] => true
  | x :: xs, y :: ys => beqO x y && beqL xs ys
  | _, _ => false
end

mutual
theorem beqO_iff : ∀ a b : Obj, beqO a b = true ↔ a = b
  | .int _, b => by cases b <;> simp [beqO]
  | .bool _, b => by cases b <;> simp [beqO]
  | .str _, b => by cases b <;> simp [beqO]
  | .sym _ _, b => by cases b <;> simp [beqO]
  | .list xs, b => by
      cases b <;> simp [beqO]
      exact beqL_iff xs _
  | .tuple xs _, b => by
      cases b <;> simp [beqO]
      intro _
      exact beqL_iff xs _
theorem beqL_iff : ∀ a b : List Obj, beqL a b = true ↔ a = b
  | [], b => by cases b <;> simp [beqL]
  | x :: xs, b => by
      cases b with
      | nil => simp [beqL]
      | cons y ys => simp [beqL, beqO_iff x y, beqL_iff xs ys]
end

instance : DecidableEq Obj := fun a b => decidable_of_iff _ (beqO_iff a b)

/-- Embeds C `isdigit`: the ASCII decimal digits. -/
def isDigitC (c : Char) : Bool :=
  48 ≤ c.toNat && c.toNat ≤ 57

/-- Embeds C `isalpha` in the default locale: the ASCII letters. -/
def isAlphaC (c : Char) : Bool :=
  (65 ≤ c.toNat && c.toNat ≤ 90) || (97 ≤ c.toNat && c.toNat ≤ 122)

/-- Embeds C `isspace` in the default locale (space, tab, newline,
vertical tab, form feed, carriage return), as used by
`consume_space_and_comment` (main.c:171-187). -/
def isSpaceC (c : Char) : Bool :=
  c == ' ' || c == '\t' || c == '\n' || c == '\x0b' || c == '\x0c' || c == '\r'

/-- Embeds `is_symbol` (main.c:144-169): ASCII letters plus the
characters accepted by the switch. -/
def isSymbolChar (c : Char) : Bool :=
  isAlphaC c || c == '@' || c == '$' || c == '#' || c == '+' || c == '-' ||
  c == '*' || c == '/' || c == '=' || c == '?' || c == '%' || c == '>' ||
  c == '<' || c == '_' || c == '.' || c == '^' || c == '\''

/-- Embeds the inner comment scan of `consume_space_and_comment`
(main.c:182-184): advance to the next newline or the end of input,
leaving the newline in place. -/
def dropComment : List Char → List Char
  | [] => []
  | c :: r => if c == '\n' then c :: r else dropComment r

/-- Fuel-indexed loop of `consume_space_and_comment` (main.c:171-187).
Every iteration consumes at least one character, so fuel equal to the
input length (supplied by `skipSpaceComment`) always suffices. -/
def skipSpaceCommentF : Nat → List Char → List Char
  | 0, s => s
  | _ + 1, [] => []
  | f + 1, c :: t =>
    if isSpaceC c then skipSpaceCommentF f t
    else if c == '/' && t.head? == some '/' then skipSpaceCommentF f (dropComment t)
    else c :: t

/-- Embeds `consume_space_and_comment` (main.c:171-187). -/
def skipSpaceComment (s : List Char) : List Char :=
  skipSpaceCommentF s.length s

/-- Embeds the integer-literal scan of `parse_object` (main.c:204-213):
consume bytes that are `-` or digits into a 64-byte buffer, so at most
63 characters are taken. -/
def takeIntChars : Nat → List Char → List Char × List Char
  | _, [] => ([], [])
  | 0, s => ([], s)
  | k + 1, c :: r =>
    if c == '-' || isDigitC c then
      let p := takeIntChars k r
      (c :: p.1, p.2)
    else ([], c :: r)

/-- Value of a list of decimal digit characters, most significant
first. -/
def digitsVal (cs : List Char) : Nat :=
  cs.foldl (fun a c => 10 * a + (c.toNat - 48)) 0

/-- Embeds C `atoi` on the scanned buffer (main.c:215): an optional
leading minus sign followed by the longest run of digits; scanning
stops at the first non-digit. -/
def atoiModel (cs : List Char) : Int :=
  if cs.head? = some '-' then -((digitsVal ((cs.drop 1).takeWhile isDigitC) : Nat) : Int)
  else ((digitsVal (cs.takeWhile isDigitC) : Nat) : Int)

/-- Embeds the string-literal loop of `parse_object` (main.c:348-391):
read bytes until the closing quote, decoding backslash-n, -r, -t to
control characters and keeping the character itself after any other
backslash. Reaching the end of input without a closing quote is the
"Quotation marks never closed" failure; a backslash as the very last
byte makes the C code read past the terminating NUL, which cannot
produce a successful parse either. -/
def parseStringBody : List Char → Option (List Char × List Char)
  | [] => none
  | c :: r =>
    if c == '"' then some ([], r)
    else if c == '\\' then
      match r with
      | [] => none
      | e :: r2 =>
        let d := if e == 'n' then '\n' else if e == 'r' then '\r'
                 else if e == 't' then '\t' else e
        (parseStringBody r2).map fun p => (d :: p.1, p.2)
    else (parseStringBody r).map fun p => (c :: p.1, p.2)

/-- Call states of the reader: parsing one object (`parse_object`,
main.c:189-406) or the child-collecting loop of a list or tuple literal
(main.c:238-287). -/
inductive ParseCall where
  | obj (s : List Char)
  | elems (isList : Bool) (quoted : Bool) (acc : List Obj) (s : List Char)

/-- The check applied to every tuple child (main.c:262-275): it must be
a symbol whose name is exactly one byte. -/
def isSingleCharSym : Obj → Bool
  | .sym nm _ => nm.length == 1
  | _ => false

/-- Embeds `parse_object` (main.c:189-406) as a fuel-indexed step
function. The branch order is the C order: integer, list or tuple or
quoted tuple, symbol, boolean, string, failure. Fuel decreases once per
recursive call; `parseTop` supplies fuel that always suffices because
each level of recursion consumes at least one input character. -/
def parseStep : Nat → ParseCall → Option (Obj × List Char)
  | 0, _ => none
  | fuel + 1, .obj s0 =>
    let s := skipSpaceComment s0
    match s with
    | [] => none
    | c :: t =>
      if (c == '-' && t.head?.elim false isDigitC) || isDigitC c then
        let p := takeIntChars 63 (c :: t)
        some (.int (atoiModel p.1), p.2)
      else if c == '[' then
        parseStep fuel (.elems true false [] t)
      else if c == '(' then
        parseStep fuel (.elems false false [] t)
      else if c == '\'' && t.head? == some '(' then
        parseStep fuel (.elems false true [] t.tail)
      else if isSymbolChar c then
        let s1 := if c == '\'' then t else c :: t
        let nm := s1.takeWhile isSymbolChar
        some (.sym nm (c == '\''), s1.drop nm.length)
      else if c == '#' then
        match t with
        | 't' :: t2 => some (.bool true, t2)
        | 'f' :: t2 => some (.bool false, t2)
        | _ => none
      else if c == '"' then
        (parseStringBody t).map fun p => (.str p.1, p.2)
      else none
  | fuel + 1, .elems isList q acc s0 =>
    let s := skipSpaceComment s0
    if s.head? = some (if isList then ']' else ')') then
      some (if isList then .list acc else .tuple acc q, s.tail)
    else
      match parseStep fuel (.obj s) with
      | none => none
      | some (el, rest) =>
        if isList || isSingleCharSym el then
          parseStep fuel (.elems isList q (acc ++ [el]) rest)
        else none

/-- Top-level entry of the reader. The C parser always terminates
because every recursive call and loop iteration consumes input; twice
the input length plus two steps is always enough fuel. -/
def parseTop (s : List Char) : Option (Obj × List Char) :=
  parseStep (2 * s.length + 2) (.obj s)

/-- Decimal digits of a positive natural, most significant first,
with explicit fuel (one recursion per digit, so fuel equal to the
number itself is always ample). -/
def natDigitsF : Nat → Nat → List Char
  | 0, _ => []
  | _ + 1, 0 => []
  | f + 1, n + 1 => natDigitsF f ((n + 1) / 10) ++ [Char.ofNat (48 + (n + 1) % 10)]

/-- Embeds C `printf` with the `%d` conversion as used by
`print_object` for integers (main.c:507-509): minus sign for negative
values, then the decimal digits. -/
def intChars (n : Int) : List Char :=
  if n < 0 then '-' :: natDigitsF n.natAbs n.natAbs
  else if n = 0 then ['0']
  else natDigitsF n.natAbs n.natAbs

/-- Embeds the repr-mode escaping of string bytes in `print_object`
(main.c:522-543): newline, carriage return, tab and double quote are
escaped, every other byte — including backslash — is printed as is. -/
def escapeChar (c : Char) : List Char :=
  if c == '\n' then ['\\', 'n']
  else if c == '\r' then ['\\', 'r']
  else if c == '\t' then ['\\', 't']
  else if c == '"' then ['\\', '"']
  else [c]

mutual
/-- Embeds `print_object` (main.c:474-568) with the `PRINT_REPR` flag
set and `PRINT_COLOR` clear: booleans as two characters, integers in
decimal, symbols as their stored bytes (the quoted flag is not
printed), strings quoted and escaped, lists and tuples bracketed with
children separated by single spaces. -/
def printRepr : Obj → List Char
  | .bool b => ['#', if b then 't' else 'f']
  | .int n => intChars n
  | .sym s _ => s
  | .str s => '"' :: escapeList s ++ ['"']
  | .list xs => '[' :: printReprList xs ++ [']']
  | .tuple xs _ => '(' :: printReprList xs ++ [')']
/-- Children of a list or tuple, separated by single spaces
(main.c:551-556: a space after every child but the last). -/
def printReprList : List Obj → List Char
  | [] => []
  | [x] => printRepr x
  | x :: y :: r => printRepr x ++ ' ' :: printReprList (y :: r)
/-- Escaped bytes of a string body (main.c:523-542). -/
def escapeList : List Char → List Char
  | [] => []
  | c :: r => escapeChar c ++ escapeList r
end

mutual
/-- Embeds `deep_copy` (main.c:592-633). The copy of a list or tuple is
allocated by `new_object`, which never initialises the `quoted` field,
and the list-or-tuple branch (main.c:605-616) does not copy it either —
unlike the string-or-symbol branch (main.c:620), which does. The
`junk` parameter stands for whatever value that uninitialised field
happens to hold in the copy. -/
def deepCopy (junk : Bool) : Obj → Obj
  | .int n => .int n
  | .bool b => .bool b
  | .str s => .str s
  | .sym s q => .sym s q
  | .list xs => .list (deepCopyList junk xs)
  | .tuple xs _ => .tuple (deepCopyList junk xs) junk

/-- Elementwise `deep_copy` of the children array (main.c:611-615). -/
def deepCopyList (junk : Bool) : List Obj → List Obj
  | [] => []
  | x :: t => deepCopy junk x :: deepCopyList junk t
end

/-- A C string's bytes up to its first NUL, as compared by `strcmp`. -/
def cutNul (s : List Char) : List Char :=
  s.takeWhile (fun c => c ≠ '\x00')

/-- Sign of `strcmp` on two byte lists (unsigned byte comparison,
shorter strict prefix compares smaller). -/
def strcmpSign : List Char → List Char → Int
  | [], [] => 0
  | [], _ :: _ => -1
  | _ :: _, [] => 1
  | a :: as, b :: bs =>
    if a.toNat < b.toNat then -1
    else if b.toNat < a.toNat then 1
    else strcmpSign as bs

/-- Embeds `compare` (main.c:410-460). Returns `none` for the
`COMPARE_TYPE_MISMATCH` sentinel and otherwise the sign −1, 0 or 1.
Booleans are stored as C ints 0 or 1 and compared numerically; strings
and symbols are compared by `strcmp`, hence up to their first NUL
byte; lists and tuples are compared by length only (main.c:446-457). -/
def compareObj (a b : Obj) : Option Int :=
  match a, b with
  | .int x, .int y => some (if x < y then -1 else if y < x then 1 else 0)
  | .bool x, .bool y =>
    some (if x.toNat < y.toNat then -1 else if y.toNat < x.toNat then 1 else 0)
  | .str x, .str y => some (strcmpSign (cutNul x) (cutNul y))
  | .str x, .sym y _ => some (strcmpSign (cutNul x) (cutNul y))
  | .sym x _, .str y => some (strcmpSign (cutNul x) (cutNul y))
  | .sym x _, .sym y _ => some (strcmpSign (cutNul x) (cutNul y))
  | .list x, .list y => some (lengthSign x.length y.length)
  | .list x, .tuple y _ => some (lengthSign x.length y.length)
  | .tuple x _, .list y => some (lengthSign x.length y.length)
  | .tuple x _, .tuple y _ => some (lengthSign x.length y.length)
  | _, _ => none
where
  /-- Sign of the length comparison (main.c:450-456). -/
  lengthSign (x y : Nat) : Int := if x < y then -1 else if y < x then 1 else 0

/-- Identifies the native (C-function) procedures of the library, the
values of the `c_procedure` field (main.c:56). -/
inductive NativeFn where
  | math
  | comparison
  | sort
  | define
  | ifWord
  | evalWord
  | upEval
  | print
  | println
  | lengthWord
  | listAppend
  | at
  | showStack
  | concatenate
  | toTuple
deriving DecidableEq

/-- Embeds `catis_procedure` (main.c:53-58): a name, an optional body
list (`procedure`), and an optional native function (`c_procedure`).
`add_procedure` asserts exactly one of the two is set. -/
structure Proc where
  name : List Char
  body : Option Obj
  native : Option NativeFn
deriving DecidableEq

/-- Embeds `lookup_procedure` (main.c:898-907): first entry of the
linked list whose name matches. -/
def lookupProcedure : List Proc → List Char → Option Proc
  | [], _ => none
  | p :: t, nm => if p.name = nm then some p else lookupProcedure t nm

/-- In-place update performed by `add_procedure` when the name is
already bound (main.c:925-930, 934-935): the first matching entry keeps
its name and receives the new body and native pointer; the old body is
released. -/
def replaceFirstProc : List Proc → List Char → Option NativeFn → Option Obj → List Proc
  | [], _, _, _ => []
  | p :: t, nm, c, b =>
    if p.name = nm then ⟨p.name, b, c⟩ :: t
    else p :: replaceFirstProc t nm c b

/-- Embeds `add_procedure` (main.c:918-936): update the existing entry
in place if the name is bound, otherwise prepend a new entry
(`new_procedure`, main.c:909-916). In both cases the entry ends with
`procedure = list` and `c_procedure = c_procedure` — defining a body
over a native binding clears the native pointer. -/
def addProcedure (t : List Proc) (nm : List Char) (c : Option NativeFn)
    (b : Option Obj) : List Proc :=
  match lookupProcedure t nm with
  | some _ => replaceFirstProc t nm c b
  | none => ⟨nm, b, c⟩ :: t

/-- Embeds `library_define` (main.c:1038-1047): the stack must hold a
List below a Symbol (any quoting); pop both and call `add_procedure`
with a NULL `c_procedure`. Returns the new stack and table, or `none`
for the type-check failure. The stack's head is the top. -/
def libraryDefine (stack : List Obj) (table : List Proc) :
    Option (List Obj × List Proc) :=
  match stack with
  | .sym nm _ :: prog :: rest =>
    match prog with
    | .list _ => some (rest, addProcedure table nm none (some prog))
    | _ => none
  | _ => none

/-- Type mask check of `library_at`'s first operand
(main.c:1204-1211): List, Tuple or String. -/
def isContainer : Obj → Bool
  | .list _ => true
  | .tuple _ _ => true
  | .str _ => true
  | _ => false

/-- The length used by `library_at` (main.c:1220-1223): byte count for
strings, element count for lists and tuples. -/
def lenOf : Obj → Nat
  | .str s => s.length
  | .list xs => xs.length
  | .tuple xs _ => xs.length
  | _ => 0

/-- The element pushed by `library_at` at an in-range index
(main.c:1230-1240): a fresh one-byte string for strings, the retained
child for lists and tuples. -/
def elemAt : Obj → Nat → Obj
  | .str s, i => .str [s.getD i default]
  | .list xs, i => xs.getD i default
  | .tuple xs _, i => xs.getD i default
  | _, _ => default

/-- Embeds `library_at` (main.c:1204-1244) acting on the operand stack
(head is the top, so the index is above the container). `none` is the
type-check failure; negative indices count from the end; any index
still out of range pushes Bool false. -/
def libraryAt (stack : List Obj) : Option (List Obj) :=
  match stack with
  | iObj :: x :: rest =>
    match iObj with
    | .int i =>
      if isContainer x then
        let len : Int := (lenOf x : Int)
        let j : Int := if i < 0 then len + i else i
        if j < 0 || len ≤ j then some (.bool false :: rest)
        else some (elemAt x j.toNat :: rest)
      else none
    | _ => none
  | _ => none

/-- Error message text set by `library_compare` on a type mismatch
(main.c:996). -/
def msgCompareMismatch : String := "Type mismatch in comparison"

/-- Error message of `check_stack_length` (main.c:873). -/
def msgOutOfStack : String := "Out of stack"

/-- The type mask `CATIS_TYPE_LIST | CATIS_TYPE_TUPLE` as a predicate
on values. -/
def isListOrTuple : Obj → Bool
  | .list _ => true
  | .tuple _ _ => true
  | _ => false

/-- Embeds `library_compare` (main.c:985-1020): pop both operands; on
`COMPARE_TYPE_MISMATCH` push them back in their original order, set the
error and fail (the second component is the error message of the
non-zero return); otherwise push the boolean decided by the operator
name's first two bytes. The operator name is the procedure's name as a
byte list. -/
def libraryCompare (op : List Char) (stack : List Obj) :
    List Obj × Option String :=
  match stack with
  | b :: a :: rest =>
    match compareObj a b with
    | none => (b :: a :: rest, some msgCompareMismatch)
    | some cmp =>
      let r : Bool :=
        if op = ['=', '='] then cmp = 0
        else if op = ['!', '='] then cmp ≠ 0
        else if op = ['<', '='] then cmp ≤ 0
        else if op = ['>', '='] then 0 ≤ cmp
        else if op = ['<'] then cmp < 0
        else 0 < cmp
      (.bool r :: rest, none)
  | _ => (stack, some msgOutOfStack)

/-- Embeds `stackframe` (main.c:60-67): an array of 256 local slots
indexed by the byte value of a single-character symbol name. The
`procedure` back-pointer and `line` are error-reporting metadata and
are omitted. -/
structure Frame where
  locals : Fin 256 → Option Obj

/-- The parts of `catis_context` (main.c:69-77) the evaluator steps
act on: the operand stack (head is the top), the procedure table and
the active frame. -/
structure Ctx where
  stack : List Obj
  table : List Proc
  frame : Frame

/-- Outcome of one iteration of the `eval` loop (main.c:764-868):
`ok` continues with the updated context, `err` is `set_error` plus a
non-zero return (the payload is the message passed to `set_error`),
and `callNative` and `callBody` are the two procedure dispatches, whose
recursive evaluation is outside the single step. -/
inductive StepOut where
  | ok (c : Ctx)
  | err (msg : String)
  | callNative (fn : NativeFn) (c : Ctx)
  | callBody (body : Option Obj) (c : Ctx)

/-- Reduction of a byte to a local-slot index,
`int index = ...pointer[0]` (main.c:795-797). -/
def charIndex (c : Char) : Fin 256 :=
  ⟨c.toNat % 256, Nat.mod_lt _ (by omega)⟩

/-- The slot index read from a capture-tuple element: the first byte of
its symbol name, which for an empty name is the terminating NUL, index
0. Reading a non-symbol element's name is undefined behaviour in the C
(only `to-tuple` can build such a tuple); it is modelled as index 0 and
no theorem below depends on that case. -/
def captureIndex : Obj → Fin 256
  | .sym (c :: _) _ => charIndex c
  | _ => ⟨0, by omega⟩

/-- The capture loop of `eval` (main.c:793-801): for each tuple element
in order, assign the corresponding popped value to the slot named by
its first byte, releasing the previous occupant. Later assignments to
the same slot overwrite earlier ones, exactly as in the C loop. -/
def assignLocals (loc : Fin 256 → Option Obj) :
    List Obj → List Obj → (Fin 256 → Option Obj)
  | [], _ => loc
  | _, [] => loc
  | e :: es, v :: vs =>
    assignLocals (Function.update loc (captureIndex e) (some v)) es vs

/-- Error message set when an unquoted symbol is not in the procedure
table (main.c:833): note the source's spelling. -/
def msgSymbolUnbound : String := "Symbol nout bound to procedure"

/-- Error message for a `$` local that is not set (main.c:817). -/
def msgUnboundLocal : String := "Unbound local variable"

/-- Error message when the stack is shorter than a capture tuple
(main.c:788). -/
def msgOutOfStackCapture : String := "Out of stack while capturing local"

/-- Embeds one iteration of the `eval` loop (main.c:767-865) on the
current program element. `junk` is the uninitialised-field value taken
by `deepCopy` copies of tuples. Branches in C order: Tuple (quoted
push or local capture), Symbol (quoted push, `$` local, or procedure
dispatch), and default push for every other variant. -/
def evalStep (junk : Bool) (c : Ctx) (o : Obj) : StepOut :=
  match o with
  | .tuple elems true =>
    .ok { c with stack := .tuple (deepCopyList junk elems) false :: c.stack }
  | .tuple elems false =>
    if c.stack.length < elems.length then .err msgOutOfStackCapture
    else
      .ok { c with
        stack := c.stack.drop elems.length,
        frame := ⟨assignLocals c.frame.locals elems
          (c.stack.take elems.length).reverse⟩ }
  | .sym nm true =>
    .ok { c with stack := .sym nm false :: c.stack }
  | .sym nm false =>
    if nm.head? = some '$' then
      let idx := match nm with
        | _ :: c2 :: _ => charIndex c2
        | _ => (⟨0, by omega⟩ : Fin 256)
      match c.frame.locals idx with
      | none => .err msgUnboundLocal
      | some v => .ok { c with stack := v :: c.stack }
    else
      match lookupProcedure c.table nm with
      | none => .err msgSymbolUnbound
      | some p =>
        match p.native with
        | some fn => .callNative fn c
        | none => .callBody p.body c
  | other => .ok { c with stack := other :: c.stack }

/-- Reference count of the body list at the moment `define` stores it
in the C7 scenario: the fresh copy that `get_unshared_object`
(main.c:635-642) makes inside the append word (main.c:1193) is
allocated by `new_object` with a count of one (main.c:135-141), and
that single handle then moves from the operand stack through
`library_define` into the table with no intervening retain or
release, so the table owns the body's only handle. -/
def rcBodyAtDefine : Int := 1

/-- Number of `retain` calls that the body-procedure dispatch of `eval`
performs on the body list it is about to evaluate (main.c:846-857):
the code passes `procedure->procedure` to the recursive `eval` without
retaining it. -/
def retainsInEvalBodyDispatch : Int := 0

/-- Number of `release` calls that `add_procedure` performs on the old
body when a bound name is redefined (main.c:926-930). -/
def releasesInRedefineOldBody : Int := 1

/-- Reference count of the body in the C7 scenario at the moment the
redefinition inside it completes: the table held the body's sole
handle (`rcBodyAtDefine`), the in-progress evaluation of the body
added `retainsInEvalBodyDispatch`, and the redefinition subtracted
`releasesInRedefineOldBody`. At count 0 the object is freed
(main.c:108-129) although `eval`'s loop still has the body's last
element to process. A body literal that is still a child of the
running program list would instead survive on the program's own
handle (it is pushed with a retain, main.c:860-863); the guarantee
fails exactly when the table's handle is the only one, as for the
unshared copy here. -/
def inFlightBodyRc : Int :=
  rcBodyAtDefine + retainsInEvalBodyDispatch - releasesInRedefineOldBody

/-- A reader-producible tuple child: an unquoted single-character
symbol whose character is a symbol character other than the quote. -/
def tupleElemOK : Obj → Bool
  | .sym [ch] false => isSymbolChar ch && ch ≠ '\''
  | _ => false

mutual
/-- Characterises the values in the image of the reader for which the
print-then-parse round trip can hold: integers in machine-int range
(the reader's `atoi` cannot legally produce others), no booleans (the
reader's boolean branch is unreachable because `#` is a symbol
character), strings without backslash or NUL bytes, unquoted symbols
with a non-empty name of symbol characters that neither begins with a
quote (the reader strips it) nor with two slashes (the printed form
would re-read as a comment), lists of such values, and unquoted tuples
of unquoted single-character symbols. -/
def wfRT : Obj → Bool
  | .int n => decide (-(2 ^ 31 : Int) ≤ n) && decide (n < 2 ^ 31)
  | .bool _ => false
  | .str s => s.all fun c => c ≠ '\\' && c ≠ '\x00'
  | .sym s q =>
    !q && !s.isEmpty && s.all isSymbolChar &&
    s.head? != some '\'' && s.take 2 != ['/', '/']
  | .list xs => wfRTList xs
  | .tuple xs q => !q && wfRTTuple xs
/-- Conjunction of `wfRT` over every element of a list literal. -/
def wfRTList : List Obj → Bool
  | [] => true
  | x :: t => wfRT x && wfRTList t
/-- Conjunction of `tupleElemOK` over every child of a tuple literal. -/
def wfRTTuple : List Obj → Bool
  | [] => true
  | x :: t => tupleElemOK x && wfRTTuple t
end

mutual
/-- Fuel needed by `parseStep` to read back a printed value: one step
per `parse_object` call plus one per iteration of the child loop. -/
def sizeO : Obj → Nat
  | .list xs => 2 + xs.length + sizeL xs
  | .tuple xs _ => 2 + xs.length + sizeL xs
  | _ => 1
/-- Sum of `sizeO` over a list of values. -/
def sizeL : List Obj → Nat
  | [] => 0
  | x :: t => sizeO x + sizeL t
end

/-- Proof-side predicate: suffixes after a printed value inside a
printed program — empty, or starting with a separating space or a
closing bracket. Such a suffix never extends the maximal-munch scans
of the reader. -/
def goodRest : List Char → Bool
  | [] => true
  | c :: _ => c == ' ' || c == ']' || c == ')'

/-- Round-trip property of a single value: at any sufficient fuel the
reader consumes exactly the printed form and returns the value, for
any separating suffix. -/
def RTP (v : Obj) : Prop :=
  ∀ r, goodRest r = true → ∀ f, sizeO v ≤ f →
    parseStep f (.obj (printRepr v ++ r)) = some (v, r)

/-- Concrete context for the duplicate-name capture scenario: two
integers on the stack (1 was pushed first, then 2, so the head 2 is
the top), an empty procedure table and an empty frame. -/
def c3CtxBefore : Ctx := ⟨[Obj.int 2, Obj.int 1], [], ⟨fun _ => none⟩⟩

/-- The capture tuple with a repeated name, read from the source text
of a tuple literal with two children both named by the byte x. -/
def c3TupleXX : Obj :=
  .tuple [.sym ['x'] false, .sym ['x'] false] false

/-- The context after the evaluator executes the duplicate-name
capture. -/
def c3CtxAfter : Ctx :=
  match evalStep false c3CtxBefore c3TupleXX with
  | .ok c => c
  | _ => c3CtxBefore

/-- A one-entry procedure table binding the name of the addition word
to its native implementation, as `load_library` does (main.c:1331). -/
def c4TableBefore : List Proc := [⟨['+'], none, some NativeFn.math⟩]

/-- A body list for redefining the addition word. -/
def c4Body : Obj := .list [.int 1]

/-- The uniquely-owned body bound to x in the C7 scenario. In the
program whose elements are the list literal of three children (the
list of 3, the quoted symbol x, the symbol define), then 0, the append
word, the quoted symbol x, define and finally x, the literal is pushed
with a retain and so is shared between the running program list and
the stack; the append word therefore calls `get_unshared_object`
(main.c:1193, main.c:635-642), which releases the shared literal and
returns this fresh deep copy with reference count one, with 0 then
appended. `define` moves that sole handle from the operand stack into
the table. Evaluating this body redefines its own name and then still
has the element 0 left to execute. -/
def c7BodyOld : Obj :=
  .list [.list [.int 3], .sym ['x'] true,
    .sym ['d', 'e', 'f', 'i', 'n', 'e'] false, .int 0]

/-- The replacement body installed by the redefinition inside
`c7BodyOld`. -/
def c7BodyNew : Obj := .list [.int 3]

/-- Table after binding the name x to `c7BodyOld`. -/
def c7Table : List Proc := addProcedure [] ['x'] none (some c7BodyOld)

/-- A fresh interpreter context with an empty stack, no procedures and
an empty frame. -/
def c8Ctx : Ctx := ⟨[], [], ⟨fun _ => none⟩⟩

section Lemmas

theorem char_ne_of_toNat_ne {c d : Char} (h : c.toNat ≠ d.toNat) : c ≠ d :=
  fun he => h (he ▸ rfl)

theorem toNat_rbracket : (']' : Char).toNat = 93 := by decide

theorem toNat_rparen : (')' : Char).toNat = 41 := by decide

theorem toNat_slash : ('/' : Char).toNat = 47 := by decide

theorem symbolChar_toNat {c : Char} (h : isSymbolChar c = true) :
    (65 ≤ c.toNat ∧ c.toNat ≤ 90) ∨ (97 ≤ c.toNat ∧ c.toNat ≤ 122) ∨
    c.toNat = 64 ∨ c.toNat = 36 ∨ c.toNat = 35 ∨ c.toNat = 43 ∨
    c.toNat = 45 ∨ c.toNat = 42 ∨ c.toNat = 47 ∨ c.toNat = 61 ∨
    c.toNat = 63 ∨ c.toNat = 37 ∨ c.toNat = 62 ∨ c.toNat = 60 ∨
    c.toNat = 95 ∨ c.toNat = 46 ∨ c.toNat = 94 ∨ c.toNat = 39 := by
  simp only [isSymbolChar, isAlphaC, Bool.or_eq_true, Bool.and_eq_true,
    beq_iff_eq, decide_eq_true_eq] at h
  repeat' rcases h with h | h
  all_goals first
    | omega
    | decide

theorem digit_toNat {c : Char} (h : isDigitC c = true) :
    48 ≤ c.toNat ∧ c.toNat ≤ 57 := by
  simp only [isDigitC, Bool.and_eq_true, decide_eq_true_eq] at h
  exact h

theorem not_digit_of_toNat {c : Char} (h : ¬ (48 ≤ c.toNat ∧ c.toNat ≤ 57)) :
    isDigitC c = false := by
  cases hb : isDigitC c
  · rfl
  · exact absurd (digit_toNat hb) h

theorem space_toNat {c : Char} (h : isSpaceC c = true) :
    c.toNat = 32 ∨ c.toNat = 9 ∨ c.toNat = 10 ∨ c.toNat = 11 ∨
    c.toNat = 12 ∨ c.toNat = 13 := by
  simp only [isSpaceC, Bool.or_eq_true, beq_iff_eq] at h
  repeat' rcases h with h | h
  all_goals decide

theorem symbolChar_not_space {c : Char} (h : isSymbolChar c = true) :
    isSpaceC c = false := by
  cases ht : isSpaceC c
  · rfl
  · have h1 := symbolChar_toNat h
    have h2 := space_toNat ht
    omega

theorem symbolChar_not_digit {c : Char} (h : isSymbolChar c = true) :
    isDigitC c = false := by
  apply not_digit_of_toNat
  have h1 := symbolChar_toNat h
  omega

theorem digit_not_space {c : Char} (h : isDigitC c = true) :
    isSpaceC c = false := by
  cases ht : isSpaceC c
  · rfl
  · have h1 := digit_toNat h
    have h2 := space_toNat ht
    omega

theorem goodRest_head {r : List Char} (h : goodRest r = true) :
    r.head? = none ∨ r.head? = some ' ' ∨ r.head? = some ']' ∨
    r.head? = some ')' := by
  cases r with
  | nil => simp
  | cons c t =>
    simp only [goodRest, Bool.or_eq_true, beq_iff_eq] at h
    repeat' rcases h with h | h
    all_goals simp

theorem goodRest_not {p : Char → Bool} {r : List Char}
    (hsp : p ' ' = false) (hbr : p ']' = false) (hpr : p ')' = false)
    (hr : goodRest r = true) : ∀ c, r.head? = some c → p c = false := by
  intro c hc
  rcases goodRest_head hr with h | h | h | h <;> rw [hc] at h
  · exact absurd h (by simp)
  all_goals (injection h with h; subst h; assumption)

theorem skip_id {c : Char} {t : List Char}
    (hsp : isSpaceC c = false)
    (hcm : (c == '/' && t.head? == some '/') = false) :
    skipSpaceComment (c :: t) = c :: t := by
  simp only [skipSpaceComment, List.length_cons, skipSpaceCommentF, hsp, hcm,
    Bool.false_eq_true, if_false]

theorem skip_space {t : List Char} :
    skipSpaceComment (' ' :: t) = skipSpaceComment t := by
  simp only [skipSpaceComment, List.length_cons, skipSpaceCommentF]
  norm_num [isSpaceC]

theorem takeWhile_all_append {p : Char → Bool} {a b : List Char}
    (ha : ∀ c ∈ a, p c = true)
    (hb : ∀ c, b.head? = some c → p c = false) :
    (a ++ b).takeWhile p = a := by
  induction a with
  | nil =>
    cases b with
    | nil => rfl
    | cons c t =>
      simp only [List.nil_append, List.takeWhile]
      rw [hb c rfl]
  | cons x a' ih =>
    simp only [List.cons_append, List.takeWhile, List.append_eq]
    rw [ha x (by simp)]
    exact congrArg _ (ih fun c hc => ha c (by simp [hc]))

theorem takeIntChars_append {b r : List Char} :
    ∀ k, b.length ≤ k →
    (∀ c ∈ b, (c == '-' || isDigitC c) = true) →
    (∀ c, r.head? = some c → (c == '-' || isDigitC c) = false) →
    takeIntChars k (b ++ r) = (b, r) := by
  induction b with
  | nil =>
    intro k _ _ hr
    cases r with
    | nil => cases k <;> rfl
    | cons c t =>
      cases k with
      | zero => rfl
      | succ k' =>
        simp only [List.nil_append, takeIntChars, hr c rfl, Bool.false_eq_true,
          if_false]
  | cons x b' ih =>
    intro k hk hb hr
    cases k with
    | zero => simp at hk
    | succ k' =>
      simp only [List.cons_append, takeIntChars, hb x (by simp), if_true,
        List.append_eq]
      rw [ih k' (by simpa using hk) (fun c hc => hb c (by simp [hc])) hr]

theorem digitsVal_append_digit (a : List Char) (c : Char) :
    digitsVal (a ++ [c]) = 10 * digitsVal a + (c.toNat - 48) := by
  simp [digitsVal, List.foldl_append]

theorem ofNat_digit_toNat {d : Nat} (h : d < 10) :
    (Char.ofNat (48 + d)).toNat = 48 + d := by
  interval_cases d <;> decide

theorem ofNat_digit_isDigit {d : Nat} (h : d < 10) :
    isDigitC (Char.ofNat (48 + d)) = true := by
  interval_cases d <;> decide

theorem natDigitsF_all_digit :
    ∀ f m, ∀ c ∈ natDigitsF f m, isDigitC c = true := by
  intro f
  induction f with
  | zero => intro m c hc; simp [natDigitsF] at hc
  | succ f' ih =>
    intro m c hc
    cases m with
    | zero => simp [natDigitsF] at hc
    | succ m' =>
      simp only [natDigitsF, List.mem_append, List.mem_singleton] at hc
      rcases hc with hc | hc
      · exact ih _ c hc
      · subst hc
        exact ofNat_digit_isDigit (Nat.mod_lt _ (by omega))

theorem natDigitsF_val :
    ∀ f m, m ≤ f → digitsVal (natDigitsF f m) = m := by
  intro f
  induction f with
  | zero =>
    intro m hm
    interval_cases m
    simp [natDigitsF, digitsVal]
  | succ f' ih =>
    intro m hm
    cases m with
    | zero => simp [natDigitsF, digitsVal]
    | succ m' =>
      have hdiv : (m' + 1) / 10 ≤ f' := by
        have := Nat.div_le_self (m' + 1) 10
        have := Nat.div_lt_self (show 0 < m' + 1 by omega) (show 1 < 10 by omega)
        omega
      simp only [natDigitsF, digitsVal_append_digit, ih _ hdiv,
        ofNat_digit_toNat (Nat.mod_lt _ (show 0 < 10 by omega))]
      omega

theorem natDigitsF_length :
    ∀ f m k, m < 10 ^ k → (natDigitsF f m).length ≤ k := by
  intro f
  induction f with
  | zero => intro m k _; simp [natDigitsF]
  | succ f' ih =>
    intro m k hk
    cases m with
    | zero => simp [natDigitsF]
    | succ m' =>
      cases k with
      | zero => simp at hk
      | succ k' =>
        have hdiv : (m' + 1) / 10 < 10 ^ k' := by
          rw [Nat.div_lt_iff_lt_mul (by omega)]
          calc m' + 1 < 10 ^ (k' + 1) := hk
            _ = 10 ^ k' * 10 := by ring
        simp only [natDigitsF, List.length_append, List.length_singleton]
        have := ih ((m' + 1) / 10) k' hdiv
        omega

theorem natDigitsF_ne_nil {f m : Nat} (h1 : 1 ≤ m) (h2 : m ≤ f) :
    natDigitsF f m ≠ [] := by
  cases f with
  | zero => omega
  | succ f' =>
    cases m with
    | zero => omega
    | succ m' => simp [natDigitsF]

theorem takeWhile_all {p : Char → Bool} {l : List Char}
    (h : ∀ c ∈ l, p c = true) : l.takeWhile p = l := by
  induction l with
  | nil => rfl
  | cons c t ih =>
    simp only [List.takeWhile, h c (by simp)]
    exact congrArg _ (ih fun d hd => h d (by simp [hd]))

theorem psb_quote (r : List Char) : parseStringBody ('"' :: r) = some ([], r) := by
  cases r <;> rfl

theorem psb_backslash (e : Char) (r2 : List Char) :
    parseStringBody ('\\' :: e :: r2) =
      (parseStringBody r2).map fun p =>
        ((if e == 'n' then '\n' else if e == 'r' then '\r'
          else if e == 't' then '\t' else e) :: p.1, p.2) := rfl

theorem psb_raw {c : Char} (r : List Char) (h1 : c ≠ '"') (h2 : c ≠ '\\') :
    parseStringBody (c :: r) =
      (parseStringBody r).map fun p => (c :: p.1, p.2) := by
  have b1 : (c == '"') = false := by simp [h1]
  have b2 : (c == '\\') = false := by simp [h2]
  cases r <;> simp [parseStringBody, b1, b2]

theorem parseStringBody_escape {s : List Char} (r : List Char)
    (h : ∀ c ∈ s, c ≠ '\\') :
    parseStringBody (escapeList s ++ '"' :: r) = some (s, r) := by
  induction s with
  | nil => exact psb_quote r
  | cons c t ih =>
    have hc : c ≠ '\\' := h c (by simp)
    have iht := ih fun d hd => h d (by simp [hd])
    by_cases h1 : c = '\n'
    · subst h1
      simp [escapeList, escapeChar, psb_backslash, iht]
    by_cases h2 : c = '\r'
    · subst h2
      simp [escapeList, escapeChar, psb_backslash, iht]
    by_cases h3 : c = '\t'
    · subst h3
      simp [escapeList, escapeChar, psb_backslash, iht]
    by_cases h4 : c = '"'
    · subst h4
      simp [escapeList, escapeChar, psb_backslash, iht]
    · have hb1 : (c == '\n') = false := by simp [h1]
      have hb2 : (c == '\r') = false := by simp [h2]
      have hb3 : (c == '\t') = false := by simp [h3]
      have hb4 : (c == '"') = false := by simp [h4]
      simp only [escapeList, escapeChar, hb1, hb2, hb3, hb4,
        Bool.false_eq_true, if_false, List.singleton_append, List.cons_append,
        List.nil_append, psb_raw _ h4 hc, iht, Option.map_some']

theorem rt_sym (f : Nat) {s : List Char} (r : List Char)
    (hall : ∀ c ∈ s, isSymbolChar c = true)
    (hne : s ≠ [])
    (hq : s.head? ≠ some '\'')
    (hslash : s.take 2 ≠ ['/', '/'])
    (hr : goodRest r = true) :
    parseStep (f + 1) (.obj (s ++ r)) = some (.sym s false, r) := by
  obtain ⟨c, t, rfl⟩ : ∃ c t, s = c :: t := by
    cases s with
    | nil => exact absurd rfl hne
    | cons c t => exact ⟨c, t, rfl⟩
  have hc : isSymbolChar c = true := hall c (by simp)
  have hcq : c ≠ '\'' := by
    intro he
    exact hq (by rw [he]; rfl)
  have hcqb : (c == '\'') = false := by simp [hcq]
  have hsp : isSpaceC c = false := symbolChar_not_space hc
  have hcm : (c == '/' && ((t ++ r).head? == some '/')) = false := by
    by_cases hc7 : c = '/'
    · cases t with
      | nil =>
        have := goodRest_not (p := fun d => d == '/') (by decide) (by decide)
          (by decide) hr
        simp only [List.nil_append]
        cases hh : r.head? with
        | none => simp
        | some d => simp [this d hh]
      | cons c2 t' =>
        have : c2 ≠ '/' := by
          intro he
          exact hslash (by simp [hc7, he, List.take])
        simp [this]
    · simp [hc7]
  have hdig : isDigitC c = false := symbolChar_not_digit hc
  have hnext : (t ++ r).head?.elim false isDigitC = false := by
    cases t with
    | nil =>
      have := goodRest_not (p := isDigitC) (by decide) (by decide) (by decide) hr
      cases hh : r.head? with
      | none => simp [hh]
      | some d => simp [hh, this d hh]
    | cons c2 t' =>
      have := symbolChar_not_digit (hall c2 (by simp))
      simp [this]
  have hg1 : ((c == '-' && (t ++ r).head?.elim false isDigitC) || isDigitC c)
      = false := by
    rw [hnext, hdig, Bool.and_false, Bool.or_false]
  have hbr : (c == '[') = false := by
    have : c ≠ '[' := by
      intro he; rw [he] at hc; exact absurd hc (by decide)
    simp [this]
  have hpa : (c == '(') = false := by
    have : c ≠ '(' := by
      intro he; rw [he] at hc; exact absurd hc (by decide)
    simp [this]
  have htw : (c :: (t ++ r)).takeWhile isSymbolChar = c :: t := by
    rw [show c :: (t ++ r) = (c :: t) ++ r from rfl]
    exact takeWhile_all_append hall
      (goodRest_not (by decide) (by decide) (by decide) hr)
  simp only [List.cons_append, parseStep, skip_id hsp hcm, hg1,
    Bool.false_eq_true, if_false, hbr, hpa, hcqb, Bool.false_and, hc, if_true,
    htw]
  rw [show c :: (t ++ r) = (c :: t) ++ r from rfl, List.drop_left]

theorem rt_intChars (f : Nat) {c : Char} {t : List Char} (r : List Char)
    (hsp : isSpaceC c = false)
    (hcm : (c == '/' && ((t ++ r).head? == some '/')) = false)
    (hG : ((c == '-' && (t ++ r).head?.elim false isDigitC) || isDigitC c)
      = true)
    (hall : ∀ d ∈ c :: t, (d == '-' || isDigitC d) = true)
    (hlen : (c :: t).length ≤ 63)
    (hr : goodRest r = true) :
    parseStep (f + 1) (.obj ((c :: t) ++ r)) =
      some (.int (atoiModel (c :: t)), r) := by
  have htk : takeIntChars 63 ((c :: t) ++ r) = (c :: t, r) :=
    takeIntChars_append 63 hlen hall
      (goodRest_not (by decide) (by decide) (by decide) hr)
  simp only [List.cons_append, parseStep, skip_id hsp hcm, hG, if_true]
  rw [show c :: (t ++ r) = (c :: t) ++ r from rfl, htk]

theorem rt_str (f : Nat) {s : List Char} (r : List Char)
    (h : ∀ c ∈ s, c ≠ '\\') :
    parseStep (f + 1) (.obj (('"' :: escapeList s ++ ['"']) ++ r)) =
      some (.str s, r) := by
  have heq : ('"' :: escapeList s ++ ['"']) ++ r =
      '"' :: (escapeList s ++ '"' :: r) := by simp
  rw [heq]
  have hsk : skipSpaceComment ('"' :: (escapeList s ++ '"' :: r)) =
      '"' :: (escapeList s ++ '"' :: r) :=
    skip_id (by decide)
      (by rw [show (('"' : Char) == '/') = false from by decide, Bool.false_and])
  have e1 : (('"' : Char) == '-') = false := by decide
  have e2 : isDigitC '"' = false := by decide
  have e3 : (('"' : Char) == '[') = false := by decide
  have e4 : (('"' : Char) == '(') = false := by decide
  have e5 : (('"' : Char) == '\'') = false := by decide
  have e6 : isSymbolChar '"' = false := by decide
  have e7 : (('"' : Char) == '#') = false := by decide
  have e8 : (('"' : Char) == '"') = true := by decide
  simp only [parseStep, hsk, e1, e2, e3, e4, e5, e6, e7, e8, Bool.false_and,
    Bool.or_false, Bool.false_eq_true, if_false, if_true,
    parseStringBody_escape r h, Option.map_some']

theorem intChars_all (n : Int) :
    ∀ d ∈ intChars n, (d == '-' || isDigitC d) = true := by
  intro d hd
  by_cases hn : n < 0
  · simp only [intChars, hn, if_true, List.mem_cons] at hd
    rcases hd with hd | hd
    · subst hd; decide
    · rw [natDigitsF_all_digit _ _ d hd, Bool.or_true]
  · by_cases h0 : n = 0
    · subst h0
      simp [intChars] at hd
      subst hd; decide
    · simp [intChars, hn, h0] at hd
      rw [natDigitsF_all_digit _ _ d hd, Bool.or_true]

theorem natAbs_small {n : Int} (hlo : -(2 ^ 31 : Int) ≤ n) (hhi : n < 2 ^ 31) :
    n.natAbs < 10 ^ 10 := by
  have h1 : n.natAbs ≤ 2 ^ 31 := by omega
  have h2 : (2 : Nat) ^ 31 < 10 ^ 10 := by norm_num
  omega

theorem intChars_len {n : Int} (hlo : -(2 ^ 31 : Int) ≤ n)
    (hhi : n < 2 ^ 31) : (intChars n).length ≤ 63 := by
  have hd := natDigitsF_length n.natAbs n.natAbs 10 (natAbs_small hlo hhi)
  by_cases hn : n < 0
  · simp only [intChars, hn, if_true, List.length_cons]
    omega
  · by_cases h0 : n = 0
    · subst h0; decide
    · simp only [intChars, hn, if_false, h0]
      omega

theorem atoi_intChars (n : Int) : atoiModel (intChars n) = n := by
  have hval := natDigitsF_val n.natAbs n.natAbs (le_refl _)
  have hall := natDigitsF_all_digit n.natAbs n.natAbs
  have htw : (natDigitsF n.natAbs n.natAbs).takeWhile isDigitC =
      natDigitsF n.natAbs n.natAbs := takeWhile_all hall
  by_cases hn : n < 0
  · have : atoiModel ('-' :: natDigitsF n.natAbs n.natAbs) =
        -((n.natAbs : Int)) := by
      simp only [atoiModel, List.head?_cons, if_true, List.drop_one,
        List.tail_cons, htw, hval]
    simp only [intChars, hn, if_true, this]
    omega
  · by_cases h0 : n = 0
    · subst h0; decide
    · have hpos : 1 ≤ n.natAbs := by omega
      obtain ⟨d, D', hD⟩ : ∃ d D', natDigitsF n.natAbs n.natAbs = d :: D' := by
        cases hE : natDigitsF n.natAbs n.natAbs with
        | nil => exact absurd hE (natDigitsF_ne_nil hpos (le_refl _))
        | cons d D' => exact ⟨d, D', rfl⟩
      have hd : isDigitC d = true := hall d (by rw [hD]; simp)
      have hdm : d ≠ '-' := by
        intro he
        rw [he] at hd
        exact absurd hd (by decide)
      simp only [intChars, hn, if_false, h0, atoiModel, hD, List.head?_cons]
      rw [if_neg (by simpa using hdm)]
      rw [← hD, htw, hval]
      omega

theorem rt_int (f : Nat) (n : Int) (r : List Char)
    (hlo : -(2 ^ 31 : Int) ≤ n) (hhi : n < 2 ^ 31)
    (hr : goodRest r = true) :
    parseStep (f + 1) (.obj (intChars n ++ r)) = some (.int n, r) := by
  have hall := intChars_all n
  have hlen := intChars_len hlo hhi
  by_cases hn : n < 0
  · have hpos : 1 ≤ n.natAbs := by omega
    obtain ⟨d, D', hD⟩ : ∃ d D', natDigitsF n.natAbs n.natAbs = d :: D' := by
      cases hE : natDigitsF n.natAbs n.natAbs with
      | nil => exact absurd hE (natDigitsF_ne_nil hpos (le_refl _))
      | cons d D' => exact ⟨d, D', rfl⟩
    have hdg : isDigitC d = true :=
      natDigitsF_all_digit _ _ d (by rw [hD]; simp)
    have hsh : intChars n = '-' :: natDigitsF n.natAbs n.natAbs := by
      simp [intChars, hn]
    have hmain := rt_intChars f (c := '-') (t := natDigitsF n.natAbs n.natAbs) r
      (by decide)
      (by rw [show (('-' : Char) == '/') = false from by decide, Bool.false_and])
      (by rw [hD]; simp [hdg])
      (by rw [← hsh]; exact hall)
      (by rw [← hsh]; exact hlen)
      hr
    rw [hsh, hmain, ← hsh, atoi_intChars]
  · have hsh : ∃ d D', intChars n = d :: D' ∧ isDigitC d = true := by
      by_cases h0 : n = 0
      · subst h0; exact ⟨'0', [], rfl, by decide⟩
      · have hpos : 1 ≤ n.natAbs := by omega
        obtain ⟨d, D', hD⟩ : ∃ d D', natDigitsF n.natAbs n.natAbs = d :: D' := by
          cases hE : natDigitsF n.natAbs n.natAbs with
          | nil => exact absurd hE (natDigitsF_ne_nil hpos (le_refl _))
          | cons d D' => exact ⟨d, D', rfl⟩
        refine ⟨d, D', ?_, natDigitsF_all_digit _ _ d (by rw [hD]; simp)⟩
        simp [intChars, hn, h0, hD]
    obtain ⟨d, D', hD, hdg⟩ := hsh
    have hd7 : d ≠ '/' := by
      intro he; rw [he] at hdg; exact absurd hdg (by decide)
    have hmain := rt_intChars f (c := d) (t := D') r
      (digit_not_space hdg)
      (by rw [show (d == '/') = false from by simp [hd7], Bool.false_and])
      (by rw [hdg, Bool.or_true])
      (by rw [← hD]; exact hall)
      (by rw [← hD]; exact hlen)
      hr
    rw [hD, hmain, ← hD, atoi_intChars]

theorem wfRT_sym_parts {s : List Char} {q : Bool}
    (h : wfRT (.sym s q) = true) :
    q = false ∧ s ≠ [] ∧ (∀ c ∈ s, isSymbolChar c = true) ∧
    s.head? ≠ some '\'' ∧ s.take 2 ≠ ['/', '/'] := by
  simp only [wfRT, Bool.and_eq_true, Bool.not_eq_true', List.all_eq_true,
    bne_iff_ne, ne_eq, List.isEmpty_eq_false_iff_exists_mem] at h
  obtain ⟨⟨⟨⟨hq, hne⟩, hall⟩, hh⟩, ht⟩ := h
  refine ⟨hq, ?_, hall, hh, ht⟩
  obtain ⟨x, hx⟩ := hne
  intro he
  rw [he] at hx
  simp at hx

theorem wfRT_str_parts {s : List Char} (h : wfRT (.str s) = true) :
    ∀ c ∈ s, c ≠ '\\' := by
  simp only [wfRT, List.all_eq_true, Bool.and_eq_true, decide_eq_true_eq,
    ne_eq] at h
  intro c hc
  exact (h c hc).1

theorem wfRT_int_parts {n : Int} (h : wfRT (.int n) = true) :
    -(2 ^ 31 : Int) ≤ n ∧ n < 2 ^ 31 := by
  simp only [wfRT, Bool.and_eq_true, decide_eq_true_eq] at h
  exact h

theorem wfRTList_mem {xs : List Obj} (h : wfRTList xs = true) :
    ∀ x ∈ xs, wfRT x = true := by
  induction xs with
  | nil => simp
  | cons y t ih =>
    simp only [wfRTList, Bool.and_eq_true] at h
    intro x hx
    rcases List.mem_cons.mp hx with hx | hx
    · subst hx; exact h.1
    · exact ih h.2 x hx

theorem wfRTTuple_mem {xs : List Obj} (h : wfRTTuple xs = true) :
    ∀ x ∈ xs, tupleElemOK x = true := by
  induction xs with
  | nil => simp
  | cons y t ih =>
    simp only [wfRTTuple, Bool.and_eq_true] at h
    intro x hx
    rcases List.mem_cons.mp hx with hx | hx
    · subst hx; exact h.1
    · exact ih h.2 x hx

theorem tupleElemOK_parts {x : Obj} (h : tupleElemOK x = true) :
    ∃ c, x = .sym [c] false ∧ isSymbolChar c = true ∧ c ≠ '\'' := by
  cases x with
  | sym s q =>
    cases s with
    | nil => simp [tupleElemOK] at h
    | cons c s' =>
      cases s' with
      | nil =>
        cases q with
        | false =>
          simp only [tupleElemOK, Bool.and_eq_true, decide_eq_true_eq] at h
          exact ⟨c, rfl, h.1, h.2⟩
        | true => simp [tupleElemOK] at h
      | cons _ _ => simp [tupleElemOK] at h
  | int n => simp [tupleElemOK] at h
  | bool b => simp [tupleElemOK] at h
  | str s => simp [tupleElemOK] at h
  | list xs => simp [tupleElemOK] at h
  | tuple xs q => simp [tupleElemOK] at h

theorem tupleElem_wf {x : Obj} (h : tupleElemOK x = true) :
    wfRT x = true ∧ isSingleCharSym x = true ∧ sizeO x = 1 := by
  obtain ⟨c, rfl, hc, hq⟩ := tupleElemOK_parts h
  exact ⟨by simp [wfRT, hc, hq], by simp [isSingleCharSym], by simp [sizeO]⟩

theorem sizeO_pos (v : Obj) : 1 ≤ sizeO v := by
  cases v <;> simp only [sizeO] <;> omega

theorem sizeL_mem {x : Obj} {xs : List Obj} (h : x ∈ xs) :
    sizeO x ≤ sizeL xs := by
  induction xs with
  | nil => simp at h
  | cons y t ih =>
    rcases List.mem_cons.mp h with hx | hx
    · subst hx; simp [sizeL]
    · have := ih hx
      simp only [sizeL]
      have := sizeO_pos y
      omega

theorem intChars_shape (n : Int) :
    ∃ c t2, intChars n = c :: t2 ∧ (c = '-' ∨ isDigitC c = true) := by
  by_cases hn : n < 0
  · exact ⟨'-', natDigitsF n.natAbs n.natAbs, by simp [intChars, hn],
      Or.inl rfl⟩
  · by_cases h0 : n = 0
    · subst h0; exact ⟨'0', [], rfl, Or.inr (by decide)⟩
    · have hpos : 1 ≤ n.natAbs := by omega
      obtain ⟨d, D', hD⟩ : ∃ d D', natDigitsF n.natAbs n.natAbs = d :: D' := by
        cases hE : natDigitsF n.natAbs n.natAbs with
        | nil => exact absurd hE (natDigitsF_ne_nil hpos (le_refl _))
        | cons d D' => exact ⟨d, D', rfl⟩
      refine ⟨d, D', by simp [intChars, hn, h0, hD], Or.inr ?_⟩
      exact natDigitsF_all_digit _ _ d (by rw [hD]; simp)

theorem printed_shape (v : Obj) (h : wfRT v = true) :
    ∃ c t2, printRepr v = c :: t2 ∧ isSpaceC c = false ∧ c ≠ ']' ∧ c ≠ ')' ∧
      ∀ r, goodRest r = true →
        (c == '/' && ((t2 ++ r).head? == some '/')) = false := by
  cases v with
  | int n =>
    obtain ⟨c, t2, heq, hc⟩ := intChars_shape n
    refine ⟨c, t2, by simp [printRepr, heq], ?_, ?_, ?_, ?_⟩
    · rcases hc with hc | hc
      · subst hc; decide
      · exact digit_not_space hc
    · rcases hc with hc | hc
      · subst hc; decide
      · have := digit_toNat hc
        exact char_ne_of_toNat_ne (by rw [toNat_rbracket]; omega)
    · rcases hc with hc | hc
      · subst hc; decide
      · have := digit_toNat hc
        exact char_ne_of_toNat_ne (by rw [toNat_rparen]; omega)
    · intro r _
      rcases hc with hc | hc
      · subst hc; rw [show (('-' : Char) == '/') = false from by decide,
          Bool.false_and]
      · have := digit_toNat hc
        have hne : c ≠ '/' := char_ne_of_toNat_ne (by rw [toNat_slash]; omega)
        rw [show (c == '/') = false from by simp [hne], Bool.false_and]
  | bool b => simp [wfRT] at h
  | str s =>
    refine ⟨'"', escapeList s ++ ['"'], by simp [printRepr], by decide,
      by decide, by decide, ?_⟩
    intro r _
    rw [show (('"' : Char) == '/') = false from by decide, Bool.false_and]
  | sym s q =>
    obtain ⟨hq, hne, hall, hh, hslash⟩ := wfRT_sym_parts h
    obtain ⟨c, t, rfl⟩ : ∃ c t, s = c :: t := by
      cases s with
      | nil => exact absurd rfl hne
      | cons c t => exact ⟨c, t, rfl⟩
    have hc : isSymbolChar c = true := hall c (by simp)
    have hton := symbolChar_toNat hc
    refine ⟨c, t, by simp [printRepr], symbolChar_not_space hc,
      char_ne_of_toNat_ne (by rw [toNat_rbracket]; omega),
      char_ne_of_toNat_ne (by rw [toNat_rparen]; omega), ?_⟩
    intro r hr
    by_cases hc7 : c = '/'
    · cases t with
      | nil =>
        have hng := goodRest_not (p := fun d => d == '/') (by decide)
          (by decide) (by decide) hr
        simp only [List.nil_append]
        cases hh2 : r.head? with
        | none => simp
        | some d => simp [hng d hh2]
      | cons c2 t' =>
        have : c2 ≠ '/' := by
          intro he
          exact hslash (by simp [hc7, he, List.take])
        simp [this]
    · simp [hc7]
  | list xs =>
    refine ⟨'[', printReprList xs ++ [']'], by simp [printRepr], by decide,
      by decide, by decide, ?_⟩
    intro r _
    rw [show (('[' : Char) == '/') = false from by decide, Bool.false_and]
  | tuple xs q =>
    refine ⟨'(', printReprList xs ++ [')'], by simp [printRepr], by decide,
      by decide, by decide, ?_⟩
    intro r _
    rw [show (('(' : Char) == '/') = false from by decide, Bool.false_and]

theorem parseStep_elems_space (g : Nat) (il q : Bool) (acc : List Obj)
    (w : List Char) :
    parseStep (g + 1) (.elems il q acc (' ' :: w)) =
      parseStep (g + 1) (.elems il q acc w) := by
  simp only [parseStep, skip_space]

theorem parseStep_elems_step (g : Nat) (il qq : Bool) (acc : List Obj)
    {c : Char} {t2 : List Char} (r2 : List Char) (x : Obj)
    (hsp : isSpaceC c = false)
    (hcm : (c == '/' && ((t2 ++ r2).head? == some '/')) = false)
    (hne : c ≠ (if il then ']' else ')'))
    (hchild : parseStep g (.obj (c :: (t2 ++ r2))) = some (x, r2))
    (hck : (il || isSingleCharSym x) = true) :
    parseStep (g + 1) (.elems il qq acc (c :: (t2 ++ r2))) =
      parseStep g (.elems il qq (acc ++ [x]) r2) := by
  have hskid := skip_id hsp hcm
  have hcond : ¬ ((c :: (t2 ++ r2)).head? = some (if il then ']' else ')')) := by
    simp [hne]
  simp only [parseStep, hskid, if_neg hcond, hchild, hck, eq_self_iff_true,
    if_true]

theorem rt_elems (isList q : Bool) :
    ∀ (xs acc : List Obj) (r : List Char) (f : Nat),
    (∀ x ∈ xs, wfRT x = true ∧ RTP x) →
    (isList = true ∨ ∀ x ∈ xs, isSingleCharSym x = true) →
    goodRest r = true →
    sizeL xs + xs.length + 1 ≤ f →
    parseStep f (.elems isList q acc
      (printReprList xs ++ (if isList then ']' else ')') :: r)) =
      some ((if isList then Obj.list (acc ++ xs)
             else Obj.tuple (acc ++ xs) q), r) := by
  intro xs
  induction xs with
  | nil =>
    intro acc r f _ _ hr hf
    obtain ⟨g, rfl⟩ : ∃ g, f = g + 1 := ⟨f - 1, by omega⟩
    simp only [printReprList, List.nil_append, List.append_nil]
    cases isList
    · have hsk : skipSpaceComment (')' :: r) = ')' :: r :=
        skip_id (by decide)
          (by rw [show ((')' : Char) == '/') = false from by decide,
                Bool.false_and])
      simp [parseStep, hsk]
    · have hsk : skipSpaceComment (']' :: r) = ']' :: r :=
        skip_id (by decide)
          (by rw [show ((']' : Char) == '/') = false from by decide,
                Bool.false_and])
      simp [parseStep, hsk]
  | cons x t ih =>
    intro acc r f hIH hchk hr hf
    obtain ⟨hwx, hrtp⟩ := hIH x (by simp)
    have hpos := sizeO_pos x
    have hsl : sizeL (x :: t) = sizeO x + sizeL t := rfl
    obtain ⟨g, rfl⟩ : ∃ g, f = g + 1 := ⟨f - 1, by simp at hf; omega⟩
    obtain ⟨c, t2, hpr, hsp, hne1, hne2, hcm⟩ := printed_shape x hwx
    have hncl : c ≠ (if isList then ']' else ')') := by
      cases isList
      · exact hne2
      · exact hne1
    have hck : (isList || isSingleCharSym x) = true := by
      rcases hchk with hc | hc
      · rw [hc, Bool.true_or]
      · rw [hc x (by simp), Bool.or_true]
    cases t with
    | nil =>
      have hgz : goodRest ((if isList then ']' else ')') :: r) = true := by
        cases isList <;> rfl
      have hinput : printReprList [x] ++ (if isList then ']' else ')') :: r =
          c :: (t2 ++ (if isList then ']' else ')') :: r) := by
        simp only [printReprList, hpr, List.cons_append]
      rw [hinput]
      have hchild : parseStep g
          (.obj (c :: (t2 ++ (if isList then ']' else ')') :: r))) =
          some (x, (if isList then ']' else ')') :: r) := by
        rw [show c :: (t2 ++ (if isList then ']' else ')') :: r) =
            (c :: t2) ++ ((if isList then ']' else ')') :: r) from rfl, ← hpr]
        exact hrtp _ hgz g (by simp [sizeL] at hf; omega)
      have hi := ih (acc ++ [x]) r g
        (fun y hy => absurd hy (by simp))
        (by
          rcases hchk with hc | hc
          · exact Or.inl hc
          · exact Or.inr fun y hy => absurd hy (by simp))
        hr (by simp [sizeL]; omega)
      simp only [printReprList, List.nil_append] at hi
      rw [parseStep_elems_step g isList q acc _ x hsp (hcm _ hgz) hncl
        hchild hck, hi]
      simp
    | cons y t' =>
      have hgz : goodRest (' ' :: (printReprList (y :: t') ++
          (if isList then ']' else ')') :: r)) = true := rfl
      have hinput : printReprList (x :: y :: t') ++
          (if isList then ']' else ')') :: r =
          c :: (t2 ++ (' ' :: (printReprList (y :: t') ++
            (if isList then ']' else ')') :: r))) := by
        simp only [printReprList, hpr, List.cons_append, List.append_assoc]
      rw [hinput]
      have hchild : parseStep g
          (.obj (c :: (t2 ++ (' ' :: (printReprList (y :: t') ++
            (if isList then ']' else ')') :: r))))) =
          some (x, ' ' :: (printReprList (y :: t') ++
            (if isList then ']' else ')') :: r)) := by
        rw [show c :: (t2 ++ (' ' :: (printReprList (y :: t') ++
            (if isList then ']' else ')') :: r))) =
            (c :: t2) ++ (' ' :: (printReprList (y :: t') ++
            (if isList then ']' else ')') :: r)) from rfl, ← hpr]
        exact hrtp _ hgz g (by simp [sizeL] at hf; omega)
      obtain ⟨g', rfl⟩ : ∃ g', g = g' + 1 := by
        refine ⟨g - 1, ?_⟩
        have := sizeO_pos y
        simp [sizeL] at hf
        omega
      have hi := ih (acc ++ [x]) r (g' + 1)
        (fun z hz => hIH z (by simp [hz]))
        (by
          rcases hchk with hc | hc
          · exact Or.inl hc
          · exact Or.inr fun z hz => hc z (by simp [hz]))
        hr (by simp [sizeL] at hf ⊢; omega)
      rw [parseStep_elems_step (g' + 1) isList q acc _ x hsp (hcm _ hgz) hncl
        hchild hck, parseStep_elems_space, hi]
      simp

theorem parseStep_obj_lbracket (g : Nat) (w : List Char) :
    parseStep (g + 1) (.obj ('[' :: w)) =
      parseStep g (.elems true false [] w) := by
  have hsk : skipSpaceComment ('[' :: w) = '[' :: w :=
    skip_id (by decide)
      (by rw [show (('[' : Char) == '/') = false from by decide,
            Bool.false_and])
  simp only [parseStep, hsk,
    show (('[' : Char) == '-') = false from by decide,
    show isDigitC '[' = false from by decide,
    show (('[' : Char) == '[') = true from by decide,
    Bool.false_and, Bool.false_or, Bool.or_false, Bool.false_eq_true,
    if_false, if_true]

theorem parseStep_obj_lparen (g : Nat) (w : List Char) :
    parseStep (g + 1) (.obj ('(' :: w)) =
      parseStep g (.elems false false [] w) := by
  have hsk : skipSpaceComment ('(' :: w) = '(' :: w :=
    skip_id (by decide)
      (by rw [show (('(' : Char) == '/') = false from by decide,
            Bool.false_and])
  simp only [parseStep, hsk,
    show (('(' : Char) == '-') = false from by decide,
    show isDigitC '(' = false from by decide,
    show (('(' : Char) == '[') = false from by decide,
    show (('(' : Char) == '(') = true from by decide,
    Bool.false_and, Bool.false_or, Bool.or_false, Bool.false_eq_true,
    if_false, if_true]

theorem rt_obj : ∀ (N : Nat) (v : Obj), sizeO v ≤ N → wfRT v = true → RTP v := by
  intro N
  induction N using Nat.strong_induction_on with
  | _ N IH =>
    intro v hN hwf r hr f hf
    obtain ⟨g, rfl⟩ : ∃ g, f = g + 1 :=
      ⟨f - 1, by have := sizeO_pos v; omega⟩
    cases v with
    | int n =>
      obtain ⟨hlo, hhi⟩ := wfRT_int_parts hwf
      rw [show printRepr (.int n) = intChars n from rfl]
      exact rt_int g n r hlo hhi hr
    | bool b => simp [wfRT] at hwf
    | str s =>
      have hp := wfRT_str_parts hwf
      rw [show printRepr (.str s) = '"' :: escapeList s ++ ['"'] from rfl]
      exact rt_str g r hp
    | sym s q =>
      obtain ⟨hq, hne, hall, hh, hslash⟩ := wfRT_sym_parts hwf
      subst hq
      rw [show printRepr (.sym s false) = s from rfl]
      exact rt_sym g r hall hne hh hslash hr
    | list xs =>
      have hwl : ∀ x ∈ xs, wfRT x = true :=
        wfRTList_mem (by simpa [wfRT] using hwf)
      have hsz : 2 + xs.length + sizeL xs ≤ g + 1 := by
        simpa [sizeO] using hf
      have hszN : 2 + xs.length + sizeL xs ≤ N := by
        simpa [sizeO] using hN
      have h1 : ∀ x ∈ xs, wfRT x = true ∧ RTP x := by
        intro x hx
        refine ⟨hwl x hx, IH (sizeO x) ?_ x (le_refl _) (hwl x hx)⟩
        have := sizeL_mem hx
        omega
      have h2 := rt_elems true false xs [] r g h1 (Or.inl rfl) hr
        (by omega)
      rw [show printRepr (.list xs) ++ r =
        '[' :: (printReprList xs ++ ']' :: r) from by simp [printRepr],
        parseStep_obj_lbracket]
      simpa using h2
    | tuple xs q =>
      have h0 : q = false ∧ wfRTTuple xs = true := by
        simpa [wfRT, Bool.and_eq_true, Bool.not_eq_true'] using hwf
      obtain ⟨hq, hwt⟩ := h0
      subst hq
      have hsz : 2 + xs.length + sizeL xs ≤ g + 1 := by
        simpa [sizeO] using hf
      have hszN : 2 + xs.length + sizeL xs ≤ N := by
        simpa [sizeO] using hN
      have h1 : ∀ x ∈ xs, wfRT x = true ∧ RTP x := by
        intro x hx
        obtain ⟨hw, _, _⟩ := tupleElem_wf (wfRTTuple_mem hwt x hx)
        refine ⟨hw, IH (sizeO x) ?_ x (le_refl _) hw⟩
        have := sizeL_mem hx
        omega
      have hchk : (false : Bool) = true ∨
          ∀ x ∈ xs, isSingleCharSym x = true := by
        refine Or.inr fun x hx => ?_
        obtain ⟨_, hs, _⟩ := tupleElem_wf (wfRTTuple_mem hwt x hx)
        exact hs
      have h2 := rt_elems false false xs [] r g h1 hchk hr (by omega)
      rw [show printRepr (.tuple xs false) ++ r =
        '(' :: (printReprList xs ++ ')' :: r) from by simp [printRepr],
        parseStep_obj_lparen]
      simpa using h2

theorem printed_ne_nil {v : Obj} (h : wfRT v = true) : printRepr v ≠ [] := by
  obtain ⟨c, t2, hpr, _⟩ := printed_shape v h
  rw [hpr]
  simp

theorem sizeL_printed_aux (xs : List Obj)
    (hx : ∀ x ∈ xs, sizeO x ≤ 2 * (printRepr x).length) :
    sizeL xs + xs.length ≤ 2 * (printReprList xs).length + 2 := by
  induction xs with
  | nil => simp [sizeL, printReprList]
  | cons x t ih =>
    cases t with
    | nil =>
      have := hx x (by simp)
      simp only [sizeL, printReprList, List.length_cons, List.length_nil]
      omega
    | cons y t' =>
      have h1 := hx x (by simp)
      have h2 := ih fun z hz => hx z (by simp [hz])
      simp only [sizeL, printReprList, List.length_append, List.length_nil,
        List.length_cons] at h2 ⊢
      omega

theorem sizeO_le_printed :
    ∀ (N : Nat) (v : Obj), sizeO v ≤ N → wfRT v = true →
      sizeO v ≤ 2 * (printRepr v).length := by
  intro N
  induction N using Nat.strong_induction_on with
  | _ N IH =>
    intro v hN hwf
    have hlen : 1 ≤ (printRepr v).length := by
      have := printed_ne_nil hwf
      cases hE : printRepr v with
      | nil => exact absurd hE this
      | cons a b => simp
    cases v with
    | int n => simp only [sizeO]; omega
    | bool b => simp [wfRT] at hwf
    | str s => simp only [sizeO]; omega
    | sym s q => simp only [sizeO]; omega
    | list xs =>
      have hwl : ∀ x ∈ xs, wfRT x = true :=
        wfRTList_mem (by simpa [wfRT] using hwf)
      have hszN : 2 + xs.length + sizeL xs ≤ N := by
        simpa [sizeO] using hN
      have hx : ∀ x ∈ xs, sizeO x ≤ 2 * (printRepr x).length := by
        intro x hxm
        refine IH (sizeO x) ?_ x (le_refl _) (hwl x hxm)
        have := sizeL_mem hxm
        omega
      have haux := sizeL_printed_aux xs hx
      have hpl : (printRepr (.list xs)).length =
          2 + (printReprList xs).length := by
        simp [printRepr]
        omega
      rw [hpl]
      simp only [sizeO]
      omega
    | tuple xs q =>
      have h0 : q = false ∧ wfRTTuple xs = true := by
        simpa [wfRT, Bool.and_eq_true, Bool.not_eq_true'] using hwf
      obtain ⟨hq, hwt⟩ := h0
      have hszN : 2 + xs.length + sizeL xs ≤ N := by
        simpa [sizeO] using hN
      have hx : ∀ x ∈ xs, sizeO x ≤ 2 * (printRepr x).length := by
        intro x hxm
        obtain ⟨hw, _, _⟩ := tupleElem_wf (wfRTTuple_mem hwt x hxm)
        refine IH (sizeO x) ?_ x (le_refl _) hw
        have := sizeL_mem hxm
        omega
      have haux := sizeL_printed_aux xs hx
      have hpl : (printRepr (.tuple xs q)).length =
          2 + (printReprList xs).length := by
        simp [printRepr]
        omega
      rw [hpl]
      simp only [sizeO]
      omega

theorem assignLocals_other {es vs : List Obj} {j : Fin 256}
    (hj : j ∉ es.map captureIndex) :
    ∀ loc, assignLocals loc es vs j = loc j := by
  induction es generalizing vs with
  | nil => intro loc; cases vs <;> rfl
  | cons e es' ih =>
    intro loc
    cases vs with
    | nil => rfl
    | cons v vs' =>
      simp only [List.map_cons, List.mem_cons, not_or] at hj
      simp only [assignLocals]
      rw [ih (by exact hj.2), Function.update_noteq hj.1]

theorem assignLocals_get {es vs : List Obj}
    (hlen : es.length = vs.length)
    (hnd : (es.map captureIndex).Nodup) :
    ∀ loc, ∀ i, ∀ h : i < es.length,
      assignLocals loc es vs (captureIndex (es.get ⟨i, h⟩)) =
        some (vs.getD i (Obj.int 0)) := by
  induction es generalizing vs with
  | nil => intro loc i h; simp at h
  | cons e es' ih =>
    intro loc i h
    cases vs with
    | nil => simp at hlen
    | cons v vs' =>
      simp only [List.map_cons, List.nodup_cons] at hnd
      cases i with
      | zero =>
        simp only [List.get, assignLocals, List.getD]
        rw [assignLocals_other hnd.1, Function.update_same]
        rfl
      | succ i' =>
        simp only [List.get, assignLocals, List.getD]
        have := ih (by simpa using hlen) hnd.2
          (Function.update loc (captureIndex e) (some v)) i'
          (by simpa using h)
        simpa [List.getD] using this

theorem lookup_replaceFirst_found {t : List Proc} {nm : List Char} {p : Proc}
    (hE : lookupProcedure t nm = some p) (c : Option NativeFn)
    (b : Option Obj) :
    lookupProcedure (replaceFirstProc t nm c b) nm = some ⟨nm, b, c⟩ := by
  induction t with
  | nil => simp [lookupProcedure] at hE
  | cons p0 t' ih =>
    by_cases h : p0.name = nm
    · simp only [replaceFirstProc, if_pos h, lookupProcedure, h,
        eq_self_iff_true, if_true]
    · simp only [replaceFirstProc, if_neg h, lookupProcedure]
      simp only [lookupProcedure, if_neg h] at hE
      exact ih hE

theorem lookup_replaceFirst_other {t : List Proc} {nm other : List Char}
    (hne : other ≠ nm) (c : Option NativeFn) (b : Option Obj) :
    lookupProcedure (replaceFirstProc t nm c b) other =
      lookupProcedure t other := by
  induction t with
  | nil => rfl
  | cons p0 t' ih =>
    by_cases h : p0.name = nm
    · have h2 : ¬ (nm = other) := fun he => hne he.symm
      simp only [replaceFirstProc, if_pos h, lookupProcedure, h,
        if_neg h2]
    · simp only [replaceFirstProc, if_neg h, lookupProcedure, ih]

theorem lookup_addProcedure_self (t : List Proc) (nm : List Char)
    (c : Option NativeFn) (b : Option Obj) :
    lookupProcedure (addProcedure t nm c b) nm = some ⟨nm, b, c⟩ := by
  unfold addProcedure
  cases hE : lookupProcedure t nm with
  | none => simp [lookupProcedure]
  | some p => exact lookup_replaceFirst_found hE c b

theorem lookup_addProcedure_other (t : List Proc) {nm other : List Char}
    (hne : other ≠ nm) (c : Option NativeFn) (b : Option Obj) :
    lookupProcedure (addProcedure t nm c b) other =
      lookupProcedure t other := by
  unfold addProcedure
  cases hE : lookupProcedure t nm with
  | none =>
    simp only [lookupProcedure]
    rw [if_neg (fun he => hne he.symm)]
  | some p => exact lookup_replaceFirst_other hne c b

end Lemmas

section Claims

/-- Claim C1, counterexample: the source text with the two bytes hash
and t parses as the unquoted Symbol named by those two bytes, not as
the Bool true the claim requires, because `is_symbol` (main.c:151)
accepts the hash and the symbol branch of `parse_object` (main.c:295)
precedes the boolean branch (main.c:322). -/
theorem c1_counterexample :
    parseTop ['#', 't'] = some (.sym ['#', 't'] false, []) ∧
    parseTop ['#', 't'] ≠ some (.bool true, []) := by
  constructor
  · decide
  · decide

/-- Claim C1 (amended): because the hash character is in the symbol
set and the symbol branch of the reader precedes the boolean branch,
every source text whose first non-space, non-comment byte is a hash
parses as an unquoted Symbol whose name begins with that hash — the
reader returns a Symbol, never a Bool, and never fails on a leading
hash; the boolean branch of `parse_object` is unreachable. -/
theorem c1_hash_parses_as_symbol (s t : List Char)
    (h : skipSpaceComment s = '#' :: t) :
    ∃ nm r, parseTop s = some (.sym nm false, r) ∧ nm.head? = some '#' := by
  refine ⟨'#' :: t.takeWhile isSymbolChar,
    ('#' :: t).drop ('#' :: t.takeWhile isSymbolChar).length, ?_, rfl⟩
  simp only [parseTop]
  rw [show 2 * s.length + 2 = (2 * s.length + 1) + 1 from rfl]
  simp only [parseStep, h,
    show (('#' : Char) == '-') = false from by decide,
    show isDigitC '#' = false from by decide,
    show (('#' : Char) == '[') = false from by decide,
    show (('#' : Char) == '(') = false from by decide,
    show (('#' : Char) == '\'') = false from by decide,
    show isSymbolChar '#' = true from by decide,
    Bool.false_and, Bool.false_or, Bool.or_false, Bool.false_eq_true,
    if_false, if_true, List.takeWhile_cons_of_pos]

/-- Claim C1 witness: the amended theorem applied to the two-byte
source hash f. -/
theorem c1_witness :
    skipSpaceComment ['#', 'f'] = '#' :: ['f'] ∧
    (∃ nm r, parseTop ['#', 'f'] = some (.sym nm false, r) ∧
      nm.head? = some '#') :=
  ⟨by decide, c1_hash_parses_as_symbol ['#', 'f'] ['f'] (by decide)⟩

/-- Claim C2, counterexample: the one-byte String holding a single
backslash is producible by the reader (from a quoted two-backslash
source), but its repr-printed form does not escape the backslash
(main.c:522-543 has no backslash case), so re-parsing treats the
backslash as escaping the closing quote and fails with an unterminated
string. -/
theorem c2_counterexample :
    parseTop ['"', '\\', '\\', '"'] = some (.str ['\\'], []) ∧
    parseTop (printRepr (.str ['\\'])) = none := by
  constructor
  · decide
  · decide

/-- Claim C2 (amended): parsing the repr-printed form returns a
structurally equal value for every reader-producible value in the
`wfRT` fragment: Int (within machine-int range), String without
backslash or NUL bytes, unquoted Symbol, List, and unquoted Tuple,
with the same restrictions holding recursively and all nested Symbols
and Tuples unquoted. Bool is excluded because the reader cannot
produce a Bool at all (see C1); strings containing a backslash and
values containing quoted symbols or tuples are excluded because their
printed forms do not re-read to equal values. -/
theorem c2_print_parse_roundtrip (v : Obj) (h : wfRT v = true) :
    parseTop (printRepr v) = some (v, []) := by
  have h1 := rt_obj (sizeO v) v (le_refl _) h [] rfl
    (2 * (printRepr v).length + 2)
    (by have := sizeO_le_printed (sizeO v) v (le_refl _) h; omega)
  simp only [parseTop]
  simpa using h1

/-- Claim C2 witness: the amended round trip applied to a list holding
an integer, a symbol, a string and a capture tuple. -/
theorem c2_witness :
    wfRT (Obj.list [Obj.int (-3), Obj.sym ['d', 'u', 'p'] false,
      Obj.str ['h', 'i'], Obj.tuple [Obj.sym ['x'] false] false]) = true ∧
    parseTop (printRepr (Obj.list [Obj.int (-3),
      Obj.sym ['d', 'u', 'p'] false, Obj.str ['h', 'i'],
      Obj.tuple [Obj.sym ['x'] false] false])) =
    some (Obj.list [Obj.int (-3), Obj.sym ['d', 'u', 'p'] false,
      Obj.str ['h', 'i'], Obj.tuple [Obj.sym ['x'] false] false], []) :=
  ⟨by decide, c2_print_parse_roundtrip _ (by decide)⟩

set_option maxRecDepth 4096 in
/-- Claim C3, counterexample: capturing with the tuple of two children
both named x from a stack of two entries leaves the stack two shorter
but modifies only one frame slot, not the two the claim requires: both
loop iterations of main.c:794-801 write the same slot. -/
theorem c3_counterexample :
    evalStep false c3CtxBefore c3TupleXX = .ok c3CtxAfter ∧
    c3CtxAfter.stack = [] ∧
    (Finset.univ.filter fun j : Fin 256 =>
      (c3CtxAfter.frame.locals j).isSome).card = 1 ∧
    (1 : Nat) ≠ 2 := by
  refine ⟨rfl, rfl, by decide, by decide⟩

/-- Claim C3 (amended): when the evaluator executes an unquoted Tuple
naming K single-character locals with pairwise distinct slot indices
and the stack holds at least K entries, the stack afterwards is
exactly K entries shorter, the K popped values are assigned in
left-to-right stack order to the frame slots indexed by the byte value
of each symbol's character, exactly those K distinct slots receive
writes, and every other frame slot is unchanged. Without the
distinctness requirement fewer than K slots are modified, as the
counterexample shows. -/
theorem c3_capture (junk : Bool) (c : Ctx) (syms : List Char)
    (hnd : (syms.map charIndex).Nodup)
    (hlen : syms.length ≤ c.stack.length) :
    ∃ c', evalStep junk c
        (.tuple (syms.map fun ch => .sym [ch] false) false) = .ok c' ∧
      c'.stack = c.stack.drop syms.length ∧
      c'.table = c.table ∧
      (∀ i, ∀ h : i < syms.length,
        c'.frame.locals (charIndex (syms.get ⟨i, h⟩)) =
          some ((c.stack.take syms.length).reverse.getD i (Obj.int 0))) ∧
      (∀ j : Fin 256, j ∉ syms.map charIndex →
        c'.frame.locals j = c.frame.locals j) := by
  have hlm : (syms.map fun ch => Obj.sym [ch] false).length = syms.length :=
    List.length_map _ _
  have hmapeq : ((syms.map fun ch => Obj.sym [ch] false).map captureIndex) =
      syms.map charIndex := by
    rw [List.map_map]
    rfl
  have hnotlt : ¬ (c.stack.length <
      (syms.map fun ch => Obj.sym [ch] false).length) := by
    rw [hlm]
    omega
  refine ⟨⟨c.stack.drop (syms.map fun ch => Obj.sym [ch] false).length,
    c.table,
    ⟨assignLocals c.frame.locals (syms.map fun ch => Obj.sym [ch] false)
      ((c.stack.take
        (syms.map fun ch => Obj.sym [ch] false).length).reverse)⟩⟩,
    by simp only [evalStep, if_neg hnotlt], by simp only [hlm], rfl, ?_, ?_⟩
  · intro i h
    show assignLocals c.frame.locals _ _ _ = _
    have hlen2 : (syms.map fun ch => Obj.sym [ch] false).length =
        ((c.stack.take
          (syms.map fun ch => Obj.sym [ch] false).length).reverse).length := by
      rw [hlm, List.length_reverse, List.length_take]
      omega
    have hg := assignLocals_get hlen2 (by rw [hmapeq]; exact hnd)
      c.frame.locals i (by rw [hlm]; exact h)
    have hget : ((syms.map fun ch => Obj.sym [ch] false).get
        ⟨i, by rw [hlm]; exact h⟩) = Obj.sym [syms.get ⟨i, h⟩] false := by
      simp
    rw [hget] at hg
    rw [show charIndex (syms.get ⟨i, h⟩) =
      captureIndex (Obj.sym [syms.get ⟨i, h⟩] false) from rfl]
    rw [hg, hlm]
  · intro j hj
    show assignLocals c.frame.locals _ _ j = _
    exact assignLocals_other (by rw [hmapeq]; exact hj) c.frame.locals

/-- Claim C3 witness: the amended capture theorem applied to the tuple
naming the two distinct locals a and b over a two-entry stack. -/
theorem c3_capture_witness :
    (['a', 'b'].map charIndex).Nodup ∧
    (['a', 'b'].length ≤ c3CtxBefore.stack.length) ∧
    (∃ c', evalStep false c3CtxBefore
        (.tuple (['a', 'b'].map fun ch => .sym [ch] false) false) = .ok c' ∧
      c'.stack = c3CtxBefore.stack.drop (['a', 'b'].length) ∧
      c'.table = c3CtxBefore.table ∧
      (∀ i, ∀ h : i < (['a', 'b'].length),
        c'.frame.locals (charIndex (['a', 'b'].get ⟨i, h⟩)) =
          some ((c3CtxBefore.stack.take
            (['a', 'b'].length)).reverse.getD i (Obj.int 0))) ∧
      (∀ j : Fin 256, j ∉ ['a', 'b'].map charIndex →
        c'.frame.locals j = c3CtxBefore.frame.locals j)) :=
  ⟨by decide, by decide,
    c3_capture false c3CtxBefore ['a', 'b'] (by decide) (by decide)⟩

/-- Claim C4, counterexample: defining a body over the native binding
of the addition word yields an entry whose `c_procedure` is NULL, not
the retained native fallback the claim requires: `add_procedure`
unconditionally overwrites both fields (main.c:934-935) and
`library_define` passes a NULL native pointer (main.c:1044). -/
theorem c4_counterexample :
    libraryDefine [.sym ['+'] false, c4Body] c4TableBefore =
      some ([], [⟨['+'], some c4Body, none⟩]) ∧
    (lookupProcedure c4TableBefore ['+']).map Proc.native =
      some (some NativeFn.math) ∧
    (some ([], [⟨['+'], some c4Body, none⟩]) :
      Option (List Obj × List Proc)) ≠
      some ([], [⟨['+'], some c4Body, some NativeFn.math⟩]) := by
  refine ⟨rfl, rfl, by decide⟩

/-- Claim C4 (amended): executing `define` with a List body and a
Symbol name binds the name to the body as a user procedure, replacing
the previous binding entirely: the new entry's body is the given list
and its native pointer is cleared to NULL even when the name was bound
to a native procedure, so no native fallback is retained; every other
name's binding is unchanged. -/
theorem c4_define_replaces (t : List Proc) (nm : List Char) (xs : List Obj)
    (q : Bool) (stk : List Obj) :
    ∃ t', libraryDefine (.sym nm q :: .list xs :: stk) t = some (stk, t') ∧
      lookupProcedure t' nm = some ⟨nm, some (.list xs), none⟩ ∧
      ∀ other, other ≠ nm →
        lookupProcedure t' other = lookupProcedure t other :=
  ⟨addProcedure t nm none (some (.list xs)), rfl,
    lookup_addProcedure_self t nm none (some (.list xs)),
    fun _ hne => lookup_addProcedure_other t hne none (some (.list xs))⟩

/-- Claim C4 witness: the amended theorem applied to the concrete
table binding the addition word to its native procedure. -/
theorem c4_define_replaces_witness :
    ∃ t', libraryDefine (.sym ['+'] false :: .list [.int 1] :: [])
        c4TableBefore = some ([], t') ∧
      lookupProcedure t' ['+'] = some ⟨['+'], some (.list [.int 1]), none⟩ ∧
      ∀ other, other ≠ ['+'] →
        lookupProcedure t' other = lookupProcedure c4TableBefore other :=
  c4_define_replaces c4TableBefore ['+'] [.int 1] false []

/-- Claim C5 (confirmed): the at built-in with a container and an
integer index pushes the element at the index when it is in range,
the element at length plus index for negative indices in range, and
Bool false otherwise; for a String container every in-range element is
a one-byte String. -/
theorem c5_at_indexing (x : Obj) (i : Int) (rest : List Obj)
    (hx : isContainer x = true) :
    libraryAt (.int i :: x :: rest) =
      some ((if 0 ≤ i ∧ i < (lenOf x : Int) then elemAt x i.toNat
        else if -(lenOf x : Int) ≤ i ∧ i < 0 then
          elemAt x ((lenOf x : Int) + i).toNat
        else .bool false) :: rest) ∧
    (∀ s, x = .str s → ∀ j, ∃ ch, elemAt x j = .str [ch]) := by
  constructor
  · simp only [libraryAt, hx, if_true]
    split_ifs with h1 h2 h3 h4 h5 h6 h7
    all_goals try rfl
    all_goals simp only [Bool.or_eq_true, decide_eq_true_eq] at *
    all_goals omega
  · intro s hs j
    subst hs
    exact ⟨s.getD j default, rfl⟩

/-- Claim C5 witness: indexing the four-element list at 2 yields the
third element, at minus 1 the last, and at 5 the Bool false, matching
the spec scenarios. -/
theorem c5_at_indexing_witness :
    isContainer (Obj.list [.int 1, .int 2, .int 3, .int 4]) = true ∧
    libraryAt [.int 2, .list [.int 1, .int 2, .int 3, .int 4]] =
      some [.int 3] ∧
    libraryAt [.int (-1), .list [.int 1, .int 2, .int 3, .int 4]] =
      some [.int 4] ∧
    libraryAt [.int 5, .list [.int 1, .int 2]] = some [.bool false] := by
  refine ⟨by decide, ?_, by decide, by decide⟩
  have := (c5_at_indexing (.list [.int 1, .int 2, .int 3, .int 4]) 2 []
    (by decide)).1
  rw [this]
  decide

/-- Claim C6 (confirmed): the compare relation orders two List or
Tuple values by element count only — minus one exactly when the left
is shorter, one exactly when it is longer, and zero when the lengths
are equal, regardless of the elements. -/
theorem c6_compare_length_only (a b : Obj)
    (ha : isListOrTuple a = true) (hb : isListOrTuple b = true) :
    compareObj a b = some (if lenOf a < lenOf b then -1
      else if lenOf b < lenOf a then 1 else 0) := by
  cases a with
  | list xs =>
    cases b with
    | list ys => rfl
    | tuple ys q => rfl
    | int n => simp [isListOrTuple] at hb
    | bool v => simp [isListOrTuple] at hb
    | str s => simp [isListOrTuple] at hb
    | sym s q => simp [isListOrTuple] at hb
  | tuple xs q =>
    cases b with
    | list ys => rfl
    | tuple ys q2 => rfl
    | int n => simp [isListOrTuple] at hb
    | bool v => simp [isListOrTuple] at hb
    | str s => simp [isListOrTuple] at hb
    | sym s q2 => simp [isListOrTuple] at hb
  | int n => simp [isListOrTuple] at ha
  | bool v => simp [isListOrTuple] at ha
  | str s => simp [isListOrTuple] at ha
  | sym s q => simp [isListOrTuple] at ha

/-- Claim C6 witness: a one-element list compares equal to a
one-element tuple with a different element, and less than a longer
list. -/
theorem c6_compare_length_only_witness :
    isListOrTuple (Obj.list [.int 9]) = true ∧
    isListOrTuple (Obj.tuple [.sym ['x'] false] false) = true ∧
    compareObj (Obj.list [.int 9]) (Obj.tuple [.sym ['x'] false] false) =
      some 0 ∧
    compareObj (Obj.list [.int 9]) (Obj.list [.int 1, .int 2]) =
      some (-1) := by
  refine ⟨by decide, by decide, ?_, by decide⟩
  have := c6_compare_length_only (.list [.int 9])
    (.tuple [.sym ['x'] false] false) (by decide) (by decide)
  rw [this]
  decide

/-- Claim C7: the shadowing half of the claim holds — redefining a
bound name updates the table entry in place, so a later lookup yields
the new body. The retained-handle half fails on the code: in the
program that appends 0 to a shared body literal — making the
uniquely-owned copy of `get_unshared_object` — binds the copy to x and
calls x, the table holds the body's only handle; the body-procedure
dispatch of `eval` passes `procedure->procedure` to the recursive
evaluation without retaining it (main.c:846-857), so when the body
redefines x, `add_procedure`'s release of the old body (main.c:926-930)
drops the count from one to zero and the list is freed while `eval`
still has the body's last element to execute — the in-progress
evaluation holds no handle of its own and is not permitted to
finish. -/
theorem c7_shadowing_and_refcount :
    lookupProcedure (addProcedure c7Table ['x'] none (some c7BodyNew))
      ['x'] = some ⟨['x'], some c7BodyNew, none⟩ ∧
    inFlightBodyRc = 0 := ⟨rfl, rfl⟩

/-- Claim C8, counterexample: the message the evaluator sets for an
unbound unquoted symbol is the source's misspelling with the word
nout, not the claimed spelling. -/
theorem c8_counterexample :
    evalStep false c8Ctx (.sym ['f', 'o', 'o'] false) =
      .err msgSymbolUnbound ∧
    msgSymbolUnbound ≠ "Symbol not bound to procedure" := ⟨rfl, by decide⟩

/-- Claim C8 (amended): every unquoted Symbol executed by the
evaluator that does not start with the dollar byte and whose name is
not bound in the procedure table fails with a non-zero status and the
error message with the source's spelling, the word nout in place of
not (main.c:833). -/
theorem c8_unbound_symbol (junk : Bool) (c : Ctx) (nm : List Char)
    (hd : nm.head? ≠ some '$')
    (hlk : lookupProcedure c.table nm = none) :
    evalStep junk c (.sym nm false) = .err msgSymbolUnbound := by
  simp only [evalStep, if_neg hd, hlk]

/-- Claim C8 witness: the amended theorem applied to an unbound
three-byte name in the empty table. -/
theorem c8_unbound_symbol_witness :
    (['f', 'o', 'o'] : List Char).head? ≠ some '$' ∧
    lookupProcedure c8Ctx.table ['f', 'o', 'o'] = none ∧
    evalStep true c8Ctx (.sym ['f', 'o', 'o'] false) =
      .err msgSymbolUnbound :=
  ⟨by decide, rfl, c8_unbound_symbol true c8Ctx _ (by decide) rfl⟩

/-- Claim C9: `deep_copy` preserves the quoted flag of Symbols
(main.c:620) but not of Tuples — the list-or-tuple branch
(main.c:605-616) never writes the copy's `quoted` field, which
`new_object` leaves uninitialised, so the copy of a quoted tuple
equals the original only if the uninitialised memory happens to hold
the same value. The `junk` argument of `deepCopy` models that
uninitialised content: with junk false the copy of the quoted tuple is
not structurally equal to the original. -/
theorem c9_deep_copy_quoted_flag :
    deepCopy false (.tuple [.sym ['x'] false] true) =
      .tuple [.sym ['x'] false] false ∧
    Obj.tuple [.sym ['x'] false] false ≠ .tuple [.sym ['x'] false] true ∧
    deepCopy true (.sym ['x'] true) = .sym ['x'] true ∧
    deepCopy false (.sym ['x'] true) = .sym ['x'] true :=
  ⟨rfl, by decide, rfl, rfl⟩

/-- Claim C10 (confirmed): every comparison built-in, applied to a
stack of at least two entries whose top two values compare as a type
mismatch, fails with a non-zero status carrying the type-mismatch
message and leaves the operand stack exactly as it was: both popped
operands are pushed back in their original order. -/
theorem c10_compare_mismatch (op : List Char) (a b : Obj)
    (rest : List Obj)
    (_hop : op ∈ [['=', '='], ['!', '='], ['<'], ['<', '='], ['>'],
      ['>', '=']])
    (hcmp : compareObj a b = none) :
    libraryCompare op (b :: a :: rest) =
      (b :: a :: rest, some msgCompareMismatch) := by
  simp only [libraryCompare, hcmp]

/-- Claim C10 witness: the equality word applied to an Int under a
String restores the stack and reports the mismatch. -/
theorem c10_compare_mismatch_witness :
    (['=', '='] : List Char) ∈ [['=', '='], ['!', '='], ['<'],
      ['<', '='], ['>'], ['>', '=']] ∧
    compareObj (Obj.int 1) (Obj.str ['a']) = none ∧
    libraryCompare ['=', '='] [Obj.str ['a'], Obj.int 1] =
      ([Obj.str ['a'], Obj.int 1], some msgCompareMismatch) :=
  ⟨by decide, rfl,
    c10_compare_mismatch ['=', '='] (.int 1) (.str ['a']) []
      (by decide) rfl⟩

end Claims

end Catis
